import Mathlib

/-!
Verification of the `vscode-firstcommit` fragments against their
natural-language specification.

The main subject is `vs/base/common/numbers.ts`: the `count` / `countToArray`
helpers and the array-backed `SortedList` associative container.  JavaScript
truthiness (`!key`) is modelled by the `JsTruthy` class; a thrown exception is
modelled by `Except.error`; the JS `null` return value of `getValue` is
modelled by `Option.none`.  `Arrays.binarySearch` (from
`vs/base/common/arrays`, not among the provided sources) is modelled from the
spec.  The language-feature provider aggregation exercised by the tests is
likewise modelled from the spec, since its implementation is outside the
provided sources.
-/

namespace Numbers

/-- JavaScript truthiness, as tested by `!x` in the source: `none` models
`null` / `undefined` (falsy); numbers are falsy exactly at `0`; strings are
falsy exactly when empty; an `Option`-wrapped value is truthy when present
and itself truthy. -/
class JsTruthy (α : Type) where
  truthy : α → Bool

export JsTruthy (truthy)

instance : JsTruthy Int where
  truthy n := n != 0

instance : JsTruthy Nat where
  truthy n := n != 0

instance : JsTruthy String where
  truthy s := s != ""

instance : JsTruthy Bool where
  truthy b := b

instance {α : Type} [JsTruthy α] : JsTruthy (Option α) where
  truthy
    | Option.none => false
    | Option.some a => truthy a

/-! ### count / countToArray (vs/base/common/numbers.ts, lines 16-70) -/

/-- The `for (var i = from; cmp(i, to); i = op(i)) callback(i);` loop of
`count`, rendered as the list of arguments passed to the callback, in order
(`toV` stands for the parameter `to`, a reserved word in Lean).
The fuel argument is an upper bound on the iteration count; callers pass the
exact number of iterations the JS loop performs. -/
def countLoop (op : Int → Int) (cmp : Int → Int → Bool) (toV : Int) :
    Nat → Int → List Int
  | 0, _ => []
  | fuel + 1, i => if cmp i toV then i :: countLoop op cmp toV fuel (op i) else []

/-- `count(from, to, callback)`: chooses the step `op` and guard `cmp`
depending on `from <= to`, then iterates.  Rendered as the list of callback
arguments (`frm` stands for the reserved word `from`). -/
def count (frm toV : Int) : List Int :=
  let op : Int → Int := if frm ≤ toV then fun i => i + 1 else fun i => i - 1
  let cmp : Int → Int → Bool :=
    if frm ≤ toV then fun a b => a < b else fun a b => a > b
  countLoop op cmp toV (toV - frm).natAbs frm

/-- `countToArray(from, to)`: pushes every callback argument of `count` into
an array. -/
def countToArray (frm toV : Int) : List Int :=
  count frm toV

/-- `countToArray(to)`: the one-argument overload; `count(fromOrTo, fn)` sets
`from = 0`. -/
def countToArray1 (toV : Int) : List Int :=
  count 0 toV

/-! ### SortedList (vs/base/common/numbers.ts, lines 199-305) -/

/-- `SortedList.DEFAULT_COMPARATOR`:
`first < second ? -1 : first > second ? 1 : 0`. -/
def DEFAULT_COMPARATOR {K : Type} [LT K] [DecidableRel fun a b : K => a < b]
    (first second : K) : Int :=
  if first < second then -1 else if first > second then 1 else 0

/-- The state of a `SortedList<TKey, TValue>`: the private `keys` and
`values` arrays and the stored `comparator`. -/
structure SortedList (K V : Type) where
  keys : List K
  values : List V
  comparator : K → K → Int

/-- The `SortedList` constructor:
`keys = []`, `values = []`, `comparator = comparator || DEFAULT_COMPARATOR`. -/
def SortedList.new {K V : Type} [LT K] [DecidableRel fun a b : K => a < b]
    (comparator : Option (K → K → Int)) : SortedList K V :=
  { keys := [], values := [], comparator := comparator.getD DEFAULT_COMPARATOR }

/-- `get count()`: `this.keys.length`. -/
def SortedList.count {K V : Type} (l : SortedList K V) : Nat :=
  l.keys.length

/-- `array.splice(p, 0, x)`: inserts `x` at position `p` (clamped to the
array length, as JS `splice` clamps). -/
def spliceInsert {α : Type} (xs : List α) (p : Nat) (x : α) : List α :=
  xs.take p ++ x :: xs.drop p

/-- `array.splice(i, 1)`: removes the element at position `i` when in range. -/
def spliceRemove {α : Type} (xs : List α) (i : Nat) : List α :=
  xs.take i ++ xs.drop (i + 1)

/-- The linear scan of `SortedList.add`:
`while (position < keys.length && comparator(key, keys[position]) > 0) position++`.
Returns the final `position`. -/
def insertPosition {K : Type} (c : K → K → Int) (key : K) : List K → Nat
  | [] => 0
  | k :: ks => if c key k > 0 then insertPosition c key ks + 1 else 0

/-- `SortedList.add(key, value)`: throws when `!key || !value`, otherwise
splices `key` and `value` in at the scanned position. -/
def SortedList.add {K V : Type} [JsTruthy K] [JsTruthy V]
    (l : SortedList K V) (key : K) (value : V) :
    Except String (SortedList K V) :=
  if !truthy key || !truthy value then
    Except.error "Key and value must be defined."
  else
    let position := insertPosition l.comparator key l.keys
    Except.ok { l with
      keys := spliceInsert l.keys position key
      values := spliceInsert l.values position value }

/-- Modelled from the spec: `Arrays.binarySearch` of `vs/base/common/arrays`
is not among the provided sources; the spec describes lookup as
"O(log n) binary-search key lookup".  Standard binary search over the index
range `[lo, hi)`: returns the index of an element comparing equal to `key`,
or `-(insertionPoint + 1)` when none compares equal.  The fuel argument is an
upper bound on the iteration count; callers pass the array length, which
always suffices since the range halves each iteration. -/
def binarySearchLoop {K : Type} (c : K → K → Int) (keys : List K) (key : K) :
    Nat → Nat → Nat → Int
  | 0, lo, _ => -(lo + 1 : Int)
  | fuel + 1, lo, hi =>
    if lo < hi then
      let mid := (lo + hi) / 2
      let cmp := c key (keys.getD mid key)
      if cmp < 0 then binarySearchLoop c keys key fuel lo mid
      else if cmp > 0 then binarySearchLoop c keys key fuel (mid + 1) hi
      else (mid : Int)
    else -(lo + 1 : Int)

/-- Modelled from the spec: `Arrays.binarySearch(array, key, comparator)`. -/
def binarySearch {K : Type} (array : List K) (key : K)
    (comparator : K → K → Int) : Int :=
  binarySearchLoop comparator array key array.length 0 array.length

/-- `SortedList.indexOfKey(key)`: throws when `!key`, otherwise
`Math.max(-1, Arrays.binarySearch(keys, key, comparator))`. -/
def SortedList.indexOfKey {K V : Type} [JsTruthy K]
    (l : SortedList K V) (key : K) : Except String Int :=
  if !truthy key then Except.error "Key must be defined."
  else Except.ok (max (-1) (binarySearch l.keys key l.comparator))

/-- `SortedList.getValue(key)`: throws when `!key`; otherwise looks the key
up and returns `values[indexOfKey]` when the index is non-negative, and
`null` (modelled `none`) otherwise. -/
def SortedList.getValue {K V : Type} [JsTruthy K]
    (l : SortedList K V) (key : K) : Except String (Option V) :=
  if !truthy key then Except.error "Key must be defined."
  else
    match l.indexOfKey key with
    | Except.error e => Except.error e
    | Except.ok idx =>
      if idx ≥ 0 then Except.ok (l.values.get? idx.toNat)
      else Except.ok Option.none

/-- `SortedList.remove(key)`: throws when `!key`; when the key is found both
arrays are spliced at its index; returns whether the index was found together
with the updated list. -/
def SortedList.remove {K V : Type} [JsTruthy K]
    (l : SortedList K V) (key : K) :
    Except String (SortedList K V × Bool) :=
  if !truthy key then Except.error "Key must be defined."
  else
    match l.indexOfKey key with
    | Except.error e => Except.error e
    | Except.ok idx =>
      if idx ≥ 0 then
        Except.ok ({ l with
          values := spliceRemove l.values idx.toNat
          keys := spliceRemove l.keys idx.toNat }, true)
      else Except.ok (l, false)

/-- A mutating operation on a `SortedList`. -/
inductive SLOp (K V : Type) where
  | add (key : K) (value : V)
  | remove (key : K)

/-- Runs one operation; a thrown exception leaves the list unchanged (the JS
methods throw before mutating anything). -/
def SortedList.runOp {K V : Type} [JsTruthy K] [JsTruthy V]
    (l : SortedList K V) : SLOp K V → SortedList K V
  | SLOp.add k v =>
    match l.add k v with
    | Except.ok l' => l'
    | Except.error _ => l
  | SLOp.remove k =>
    match l.remove k with
    | Except.ok (l', _) => l'
    | Except.error _ => l

/-- The list built from the empty constructor by a sequence of `add` and
`remove` operations. -/
def SortedList.build {K V : Type} [LT K] [DecidableRel fun a b : K => a < b]
    [JsTruthy K] [JsTruthy V]
    (comparator : Option (K → K → Int)) (ops : List (SLOp K V)) :
    SortedList K V :=
  ops.foldl SortedList.runOp (SortedList.new comparator)

/-- The keys array is sorted non-decreasingly with respect to the list's
comparator. -/
def SortedList.Sorted {K V : Type} (l : SortedList K V) : Prop :=
  l.keys.Sorted fun a b => l.comparator a b ≤ 0

/-- A genuine three-way comparator: transitive at `≤ 0`, and with
sign-antisymmetric answers on swapped arguments. -/
structure LawfulComparator {K : Type} (c : K → K → Int) : Prop where
  trans : ∀ a b d, c a b ≤ 0 → c b d ≤ 0 → c a d ≤ 0
  sign : ∀ a b, (c a b).sign = -(c b a).sign

/-- A concrete sample list used by witnesses: keys `[1, 3]`, values
`[10, 30]`, default comparator. -/
def sampleList : SortedList Int Int :=
  { keys := [1, 3], values := [10, 30], comparator := DEFAULT_COMPARATOR }

end Numbers

namespace LangFeatures

/-- Modelled from the spec: the per-language provider registries
(`OutlineRegistry`, `DeclarationRegistry`, `ReferenceRegistry`, ...) of the
editor are not among the provided sources (only their tests are).  A registry
holds the externally supplied callables in registration order, oldest first;
a callable either returns a list of results or throws (modelled by
`Except`). -/
structure ProviderRegistry (Q R : Type) where
  providers : List (Q → Except String (List R))

/-- Modelled from the spec: registering a provider appends it to the
registry. -/
def ProviderRegistry.register {Q R : Type} (reg : ProviderRegistry Q R)
    (p : Q → Except String (List R)) : ProviderRegistry Q R :=
  { providers := reg.providers ++ [p] }

/-- Modelled from the spec: the contribution of one provider call to a merged
result; a failing callable is tolerated by excluding only the failing
result. -/
def providerContribution {R : Type} : Except String (List R) → List R
  | Except.ok rs => rs
  | Except.error _ => []

/-- Modelled from the spec: answering one request over a registry calls every
registered provider, most recently registered first, drops the failing ones
and concatenates the rest. -/
def ProviderRegistry.aggregate {Q R : Type} (reg : ProviderRegistry Q R)
    (q : Q) : List R :=
  (reg.providers.reverse.map fun p => providerContribution (p q)).flatten

end LangFeatures

namespace Numbers

/-! ### Lemmas about count / countToArray -/

lemma countLoop_cons (op : Int → Int) (cmp : Int → Int → Bool) (toV : Int)
    (fuel : Nat) (i : Int) (hg : cmp i toV = true) :
    countLoop op cmp toV (fuel + 1) i = i :: countLoop op cmp toV fuel (op i) := by
  simp [countLoop, hg]

lemma countLoop_stop (op : Int → Int) (cmp : Int → Int → Bool) (toV : Int)
    (fuel : Nat) (i : Int) (hg : cmp i toV = false) :
    countLoop op cmp toV (fuel + 1) i = [] := by
  simp [countLoop, hg]

lemma countLoop_up (toV : Int) : ∀ (fuel : Nat) (i : Int),
    (toV - i).toNat ≤ fuel →
    countLoop (fun i => i + 1) (fun a b => a < b) toV fuel i =
      (List.range (toV - i).toNat).map fun j : Nat => i + (j : Int) := by
  intro fuel
  induction fuel with
  | zero =>
    intro i h
    have h0 : (toV - i).toNat = 0 := Nat.le_zero.mp h
    simp [countLoop, h0]
  | succ n ih =>
    intro i h
    by_cases hlt : i < toV
    · have h1 : (toV - i).toNat = (toV - (i + 1)).toNat + 1 := by omega
      have h2 : (toV - (i + 1)).toNat ≤ n := by omega
      have h3 := ih (i + 1) h2
      rw [countLoop_cons _ _ _ _ _ (by simpa using hlt), h3, h1,
        List.range_succ_eq_map, List.map_cons, List.map_map]
      congr 1
      · simp
      · apply List.map_congr_left
        intro j _
        simp only [Function.comp_apply]
        push_cast
        ring
    · have h0 : (toV - i).toNat = 0 := by omega
      rw [countLoop_stop _ _ _ _ _ (by simpa using hlt), h0]
      simp

lemma countLoop_down (toV : Int) : ∀ (fuel : Nat) (i : Int),
    (i - toV).toNat ≤ fuel →
    countLoop (fun i => i - 1) (fun a b => a > b) toV fuel i =
      (List.range (i - toV).toNat).map fun j : Nat => i - (j : Int) := by
  intro fuel
  induction fuel with
  | zero =>
    intro i h
    have h0 : (i - toV).toNat = 0 := Nat.le_zero.mp h
    simp [countLoop, h0]
  | succ n ih =>
    intro i h
    by_cases hlt : toV < i
    · have h1 : (i - toV).toNat = ((i - 1) - toV).toNat + 1 := by omega
      have h2 : ((i - 1) - toV).toNat ≤ n := by omega
      have h3 := ih (i - 1) h2
      rw [countLoop_cons _ _ _ _ _ (by simpa using hlt), h3, h1,
        List.range_succ_eq_map, List.map_cons, List.map_map]
      congr 1
      · simp
      · apply List.map_congr_left
        intro j _
        simp only [Function.comp_apply]
        push_cast
        ring
    · have h0 : (i - toV).toNat = 0 := by omega
      rw [countLoop_stop _ _ _ _ _ (by simpa using hlt), h0]
      simp

lemma count_of_le {frm toV : Int} (h : frm ≤ toV) :
    count frm toV = (List.range (toV - frm).toNat).map fun j : Nat => frm + (j : Int) := by
  have hfuel : (toV - frm).toNat ≤ (toV - frm).natAbs := by omega
  simpa [count, h] using countLoop_up toV (toV - frm).natAbs frm hfuel

lemma count_of_gt {frm toV : Int} (h : toV < frm) :
    count frm toV = (List.range (frm - toV).toNat).map fun j : Nat => frm - (j : Int) := by
  have hnle : ¬ frm ≤ toV := by omega
  have hfuel : (frm - toV).toNat ≤ (toV - frm).natAbs := by omega
  simpa [count, hnle] using countLoop_down toV (toV - frm).natAbs frm hfuel

end Numbers

namespace Numbers

/-- C10: `countToArray(from, to)` returns the consecutive integers starting
at `from`, stepping by `+1` when `from <= to` and by `-1` when `from > to`,
excluding `to` itself; `countToArray(x, x)` is empty; its length is
`|to - from|`; and the one-argument form `countToArray(to)` equals
`countToArray(0, to)`. -/
theorem countToArray_spec (frm toV : Int) :
    (frm ≤ toV →
      countToArray frm toV =
        (List.range (toV - frm).toNat).map fun j : Nat => frm + (j : Int)) ∧
    (toV < frm →
      countToArray frm toV =
        (List.range (frm - toV).toNat).map fun j : Nat => frm - (j : Int)) ∧
    countToArray toV toV = [] ∧
    (countToArray frm toV).length = (toV - frm).natAbs ∧
    countToArray1 toV = countToArray 0 toV := by
  refine ⟨fun h => count_of_le h, fun h => count_of_gt h, ?_, ?_, rfl⟩
  · have h := count_of_le (le_refl toV)
    simp only [countToArray, h]
    simp
  · by_cases h : frm ≤ toV
    · rw [countToArray, count_of_le h]
      simp only [List.length_map, List.length_range]
      omega
    · rw [countToArray, count_of_gt (by omega)]
      simp only [List.length_map, List.length_range]
      omega

/-- Witness for C10 at concrete inputs, in both loop directions. -/
theorem countToArray_spec_witness :
    countToArray 2 5 = [2, 3, 4] ∧ countToArray 5 2 = [5, 4, 3] := by
  constructor
  · rw [(countToArray_spec 2 5).1 (by decide)]
    rfl
  · rw [(countToArray_spec 5 2).2.1 (by decide)]
    rfl

end Numbers

namespace LangFeatures

lemma contribution_filterMap {R : Type} (es : List (Except String (List R))) :
    (es.map providerContribution).flatten =
      (es.filterMap Except.toOption).flatten := by
  induction es with
  | nil => rfl
  | cons e es ih =>
    cases e with
    | ok v => simp [providerContribution, Except.toOption, ih]
    | error msg => simp [providerContribution, Except.toOption, ih]

/-- C6: a failing provider (one whose callable throws) contributes nothing
while every sibling provider's results are still included: the aggregated
result equals the merge, most recently registered first, of only the
non-failing providers' results. -/
theorem aggregate_excludes_only_failing {Q R : Type}
    (reg : ProviderRegistry Q R) (q : Q) :
    reg.aggregate q =
      ((reg.providers.reverse.map fun p => p q).filterMap Except.toOption).flatten := by
  have h := contribution_filterMap (reg.providers.reverse.map fun p => p q)
  rw [List.map_map] at h
  exact h

/-- C7: merging preserves most-recently-registered-first ordering: after
registering `p`, the aggregate for any request starts with the results of
`p` and only then lists the results of every earlier-registered provider. -/
theorem aggregate_most_recent_first {Q R : Type} (reg : ProviderRegistry Q R)
    (p : Q → Except String (List R)) (q : Q) :
    (reg.register p).aggregate q =
      providerContribution (p q) ++ reg.aggregate q := by
  simp [ProviderRegistry.register, ProviderRegistry.aggregate]

end LangFeatures

namespace Numbers

/-! ### Lemmas about splicing and the insertion scan -/

lemma spliceInsert_length {α : Type} (xs : List α) (p : Nat) (x : α) :
    (spliceInsert xs p x).length = xs.length + 1 := by
  simp [spliceInsert]
  omega

lemma spliceRemove_eq_eraseIdx {α : Type} (xs : List α) (i : Nat) :
    spliceRemove xs i = xs.eraseIdx i :=
  (List.eraseIdx_eq_take_drop_succ xs i).symm

lemma spliceRemove_length {α : Type} (xs : List α) (i : Nat)
    (h : i < xs.length) : (spliceRemove xs i).length = xs.length - 1 := by
  rw [spliceRemove_eq_eraseIdx, List.length_eraseIdx_of_lt h]

lemma insertPosition_le_length {K : Type} (c : K → K → Int) (key : K) :
    ∀ ks : List K, insertPosition c key ks ≤ ks.length := by
  intro ks
  induction ks with
  | nil => simp [insertPosition]
  | cons k ks ih =>
    by_cases h : c key k > 0
    · simp only [insertPosition, if_pos h, List.length_cons]
      omega
    · simp [insertPosition, h]

lemma insertPosition_gt_of_lt {K : Type} (c : K → K → Int) (key d : K) :
    ∀ (ks : List K) (j : Nat), j < insertPosition c key ks →
      0 < c key (ks.getD j d) := by
  intro ks
  induction ks with
  | nil => intro j hj; simp [insertPosition] at hj
  | cons k ks ih =>
    intro j hj
    by_cases h : c key k > 0
    · cases j with
      | zero => simpa using h
      | succ j =>
        simp only [insertPosition, if_pos h] at hj
        simpa using ih j (by omega)
    · simp [insertPosition, h] at hj

lemma insertPosition_le_of_lt {K : Type} (c : K → K → Int) (key d : K) :
    ∀ ks : List K, insertPosition c key ks < ks.length →
      c key (ks.getD (insertPosition c key ks) d) ≤ 0 := by
  intro ks
  induction ks with
  | nil => intro hp; simp [insertPosition] at hp
  | cons k ks ih =>
    intro hp
    by_cases h : c key k > 0
    · simp only [insertPosition, if_pos h] at hp ⊢
      simpa using ih (by simpa using hp)
    · simp only [insertPosition, if_neg h]
      simpa using le_of_not_lt h

lemma insertPosition_min {K : Type} (c : K → K → Int) (key d : K) :
    ∀ (ks : List K) (j : Nat), j < ks.length → c key (ks.getD j d) ≤ 0 →
      insertPosition c key ks ≤ j := by
  intro ks
  induction ks with
  | nil => intro j hj; simp at hj
  | cons k ks ih =>
    intro j hj hle
    by_cases h : c key k > 0
    · cases j with
      | zero => simp at hle; omega
      | succ j =>
        simp only [insertPosition, if_pos h]
        have := ih j (by simpa using hj) (by simpa using hle)
        omega
    · simp [insertPosition, h]

lemma spliceInsert_insertPosition {K : Type} (c : K → K → Int) (key : K) :
    ∀ ks : List K, spliceInsert ks (insertPosition c key ks) key =
      List.orderedInsert (fun a b => c a b ≤ 0) key ks := by
  intro ks
  induction ks with
  | nil => rfl
  | cons k ks ih =>
    by_cases h : c key k > 0
    · have hr : ¬ c key k ≤ 0 := by omega
      simp only [insertPosition, if_pos h, List.orderedInsert, if_neg hr,
        spliceInsert, List.take_succ_cons, List.drop_succ_cons,
        List.cons_append]
      rw [← ih]
      rfl
    · have hr : c key k ≤ 0 := le_of_not_lt h
      simp [insertPosition, h, List.orderedInsert, hr, spliceInsert]

/-! ### Lemmas about lawful comparators -/

lemma LawfulComparator.self_eq_zero {K : Type} {c : K → K → Int}
    (hc : LawfulComparator c) (a : K) : c a a = 0 := by
  have h := hc.sign a a
  have h2 : (c a a).sign = 0 := by omega
  exact Int.sign_eq_zero_iff_zero.mp h2

lemma LawfulComparator.neg_of_pos {K : Type} {c : K → K → Int}
    (hc : LawfulComparator c) {a b : K} (h : 0 < c a b) : c b a < 0 := by
  have hs := hc.sign a b
  have h1 : (c a b).sign = 1 := Int.sign_eq_one_iff_pos.mpr h
  have h2 : (c b a).sign = -1 := by omega
  exact Int.sign_eq_neg_one_iff_neg.mp h2

lemma LawfulComparator.pos_of_neg {K : Type} {c : K → K → Int}
    (hc : LawfulComparator c) {a b : K} (h : c a b < 0) : 0 < c b a := by
  have hs := hc.sign a b
  have h1 : (c a b).sign = -1 := Int.sign_eq_neg_one_iff_neg.mpr h
  have h2 : (c b a).sign = 1 := by omega
  exact Int.sign_eq_one_iff_pos.mp h2

lemma LawfulComparator.zero_symm {K : Type} {c : K → K → Int}
    (hc : LawfulComparator c) {a b : K} (h : c a b = 0) : c b a = 0 := by
  have hs := hc.sign a b
  have h1 : (c a b).sign = 0 := by rw [h]; rfl
  have h2 : (c b a).sign = 0 := by omega
  exact Int.sign_eq_zero_iff_zero.mp h2

lemma LawfulComparator.total {K : Type} {c : K → K → Int}
    (hc : LawfulComparator c) (a b : K) : c a b ≤ 0 ∨ c b a ≤ 0 := by
  by_cases h : c a b ≤ 0
  · exact Or.inl h
  · exact Or.inr (le_of_lt (hc.neg_of_pos (by omega)))

/-! ### The default comparator is lawful -/

lemma DEFAULT_COMPARATOR_nonpos_iff {K : Type} [LinearOrder K] (a b : K) :
    DEFAULT_COMPARATOR a b ≤ 0 ↔ a ≤ b := by
  unfold DEFAULT_COMPARATOR
  rcases lt_trichotomy a b with h | h | h
  · simp [h, le_of_lt h]
  · simp [h]
  · simp [not_lt.mpr (le_of_lt h), h, not_le.mpr h]

lemma DEFAULT_COMPARATOR_sign {K : Type} [LinearOrder K] (a b : K) :
    (DEFAULT_COMPARATOR a b).sign = -(DEFAULT_COMPARATOR b a).sign := by
  unfold DEFAULT_COMPARATOR
  rcases lt_trichotomy a b with h | h | h
  · simp [h, not_lt.mpr (le_of_lt h)]
  · simp [h]
  · simp [h, not_lt.mpr (le_of_lt h)]

lemma DEFAULT_COMPARATOR_lawful {K : Type} [LinearOrder K] :
    LawfulComparator (fun a b : K => DEFAULT_COMPARATOR a b) := by
  constructor
  · intro a b d hab hbd
    rw [DEFAULT_COMPARATOR_nonpos_iff] at *
    exact le_trans hab hbd
  · intro a b
    exact DEFAULT_COMPARATOR_sign a b

lemma DEFAULT_COMPARATOR_eq_zero {K : Type} [LinearOrder K] {a b : K}
    (h : DEFAULT_COMPARATOR a b = 0) : a = b := by
  unfold DEFAULT_COMPARATOR at h
  rcases lt_trichotomy a b with hl | hl | hl
  · simp [hl] at h
  · exact hl
  · simp [not_lt.mpr (le_of_lt hl), hl] at h

end Numbers

namespace Numbers

/-! ### Lemmas about the modelled binary search -/

lemma sorted_getD_nonpos {K : Type} {c : K → K → Int} {keys : List K}
    (hs : keys.Sorted fun a b => c a b ≤ 0) (d : K) {i j : Nat}
    (hij : i < j) (hj : j < keys.length) :
    c (keys.getD i d) (keys.getD j d) ≤ 0 := by
  have hi : i < keys.length := lt_trans hij hj
  rw [List.getD_eq_getElem keys d hi, List.getD_eq_getElem keys d hj]
  have hfin : (⟨i, hi⟩ : Fin keys.length) < (⟨j, hj⟩ : Fin keys.length) :=
    Fin.mk_lt_mk.mpr hij
  have h := hs.rel_get_of_lt hfin
  simpa using h

lemma binarySearchLoop_found {K : Type} (c : K → K → Int) (keys : List K)
    (key : K) : ∀ (fuel lo hi : Nat),
    0 ≤ binarySearchLoop c keys key fuel lo hi →
    ∃ i : Nat, lo ≤ i ∧ i < hi ∧
      binarySearchLoop c keys key fuel lo hi = (i : Int) ∧
      c key (keys.getD i key) = 0 := by
  intro fuel
  induction fuel with
  | zero =>
    intro lo hi h
    simp only [binarySearchLoop] at h
    omega
  | succ n ih =>
    intro lo hi h
    simp only [binarySearchLoop] at h ⊢
    by_cases hlt : lo < hi
    · rw [if_pos hlt] at h ⊢
      by_cases hc1 : c key (keys.getD ((lo + hi) / 2) key) < 0
      · rw [if_pos hc1] at h ⊢
        obtain ⟨i, h1, h2, h3, h4⟩ := ih lo ((lo + hi) / 2) h
        exact ⟨i, h1, by omega, h3, h4⟩
      · rw [if_neg hc1] at h ⊢
        by_cases hc2 : c key (keys.getD ((lo + hi) / 2) key) > 0
        · rw [if_pos hc2] at h ⊢
          obtain ⟨i, h1, h2, h3, h4⟩ := ih ((lo + hi) / 2 + 1) hi h
          exact ⟨i, by omega, h2, h3, h4⟩
        · rw [if_neg hc2] at h ⊢
          exact ⟨(lo + hi) / 2, by omega, by omega, rfl, by omega⟩
    · rw [if_neg hlt] at h
      omega

lemma binarySearchLoop_present {K : Type} {c : K → K → Int}
    (hc : LawfulComparator c) (keys : List K) (key : K)
    (hs : keys.Sorted fun a b => c a b ≤ 0) : ∀ (fuel lo hi : Nat),
    hi ≤ keys.length → hi - lo ≤ fuel →
    (∃ j : Nat, lo ≤ j ∧ j < hi ∧ c key (keys.getD j key) = 0) →
    0 ≤ binarySearchLoop c keys key fuel lo hi := by
  intro fuel
  induction fuel with
  | zero =>
    intro lo hi hhi hfuel hex
    obtain ⟨j, hj1, hj2, _⟩ := hex
    omega
  | succ n ih =>
    intro lo hi hhi hfuel hex
    obtain ⟨j, hj1, hj2, hj3⟩ := hex
    have hlt : lo < hi := by omega
    have hmidlt : (lo + hi) / 2 < hi := by omega
    have hmidge : lo ≤ (lo + hi) / 2 := by omega
    simp only [binarySearchLoop, if_pos hlt]
    by_cases hc1 : c key (keys.getD ((lo + hi) / 2) key) < 0
    · rw [if_pos hc1]
      apply ih lo ((lo + hi) / 2) (by omega) (by omega)
      refine ⟨j, hj1, ?_, hj3⟩
      by_contra hge
      have hmj : (lo + hi) / 2 ≤ j := by omega
      rcases eq_or_lt_of_le hmj with heq | hmlt
      · rw [← heq] at hj3
        omega
      · have hle := sorted_getD_nonpos hs key hmlt (by omega)
        have hz : c (keys.getD j key) key = 0 := hc.zero_symm hj3
        have hle2 : c (keys.getD ((lo + hi) / 2) key) key ≤ 0 :=
          hc.trans _ _ _ hle (le_of_eq hz)
        have hpos : 0 < c (keys.getD ((lo + hi) / 2) key) key :=
          hc.pos_of_neg hc1
        omega
    · rw [if_neg hc1]
      by_cases hc2 : c key (keys.getD ((lo + hi) / 2) key) > 0
      · rw [if_pos hc2]
        apply ih ((lo + hi) / 2 + 1) hi (by omega) (by omega)
        refine ⟨j, ?_, hj2, hj3⟩
        by_contra hge
        have hmj : j ≤ (lo + hi) / 2 := by omega
        rcases eq_or_lt_of_le hmj with heq | hmlt
        · rw [heq] at hj3
          omega
        · have hle := sorted_getD_nonpos hs key hmlt (by omega)
          have hle2 : c key (keys.getD ((lo + hi) / 2) key) ≤ 0 :=
            hc.trans _ _ _ (le_of_eq hj3) hle
          omega
      · rw [if_neg hc2]
        positivity

lemma binarySearch_found {K : Type} (keys : List K) (key : K)
    (c : K → K → Int) (h : 0 ≤ binarySearch keys key c) :
    ∃ i : Nat, i < keys.length ∧ binarySearch keys key c = (i : Int) ∧
      c key (keys.getD i key) = 0 := by
  obtain ⟨i, _, h2, h3, h4⟩ :=
    binarySearchLoop_found c keys key keys.length 0 keys.length h
  exact ⟨i, h2, h3, h4⟩

lemma binarySearch_present {K : Type} {c : K → K → Int}
    (hc : LawfulComparator c) {keys : List K} (key : K)
    (hs : keys.Sorted fun a b => c a b ≤ 0)
    (j : Nat) (hj : j < keys.length) (hzero : c key (keys.getD j key) = 0) :
    0 ≤ binarySearch keys key c :=
  binarySearchLoop_present hc keys key hs keys.length 0 keys.length
    (le_refl _) (by omega) ⟨j, Nat.zero_le j, hj, hzero⟩

lemma binarySearch_neg {K : Type} {c : K → K → Int} {keys : List K} {key : K}
    (h : ∀ i : Nat, i < keys.length → c key (keys.getD i key) ≠ 0) :
    binarySearch keys key c < 0 := by
  by_contra hge
  obtain ⟨i, h1, _, h3⟩ := binarySearch_found keys key c (by omega)
  exact h i h1 h3

end Numbers

namespace Numbers

/-! ### Case lemmas for the SortedList operations -/

lemma add_ok {K V : Type} [JsTruthy K] [JsTruthy V] {l : SortedList K V}
    {k : K} {v : V} (hk : truthy k = true) (hv : truthy v = true) :
    l.add k v = Except.ok { l with
      keys := spliceInsert l.keys (insertPosition l.comparator k l.keys) k
      values := spliceInsert l.values (insertPosition l.comparator k l.keys) v } := by
  simp [SortedList.add, hk, hv]

lemma add_error {K V : Type} [JsTruthy K] [JsTruthy V] {l : SortedList K V}
    {k : K} {v : V} (h : truthy k = false ∨ truthy v = false) :
    l.add k v = Except.error "Key and value must be defined." := by
  rcases h with h | h <;> simp [SortedList.add, h]

lemma indexOfKey_ok {K V : Type} [JsTruthy K] {l : SortedList K V} {k : K}
    (hk : truthy k = true) :
    l.indexOfKey k = Except.ok (max (-1) (binarySearch l.keys k l.comparator)) := by
  simp [SortedList.indexOfKey, hk]

lemma indexOfKey_error {K V : Type} [JsTruthy K] {l : SortedList K V} {k : K}
    (hk : truthy k = false) :
    l.indexOfKey k = Except.error "Key must be defined." := by
  simp [SortedList.indexOfKey, hk]

lemma remove_found {K V : Type} [JsTruthy K] {l : SortedList K V} {k : K}
    (hk : truthy k = true) (hidx : 0 ≤ binarySearch l.keys k l.comparator) :
    l.remove k = Except.ok ({ l with
      values := spliceRemove l.values (binarySearch l.keys k l.comparator).toNat
      keys := spliceRemove l.keys (binarySearch l.keys k l.comparator).toNat },
      true) := by
  have hmax : max (-1 : Int) (binarySearch l.keys k l.comparator) =
      binarySearch l.keys k l.comparator := max_eq_right (by omega)
  rw [SortedList.remove, indexOfKey_ok hk]
  simp [hk, hmax, hidx]

lemma remove_notfound {K V : Type} [JsTruthy K] {l : SortedList K V} {k : K}
    (hk : truthy k = true) (hidx : binarySearch l.keys k l.comparator < 0) :
    l.remove k = Except.ok (l, false) := by
  have hmax : max (-1 : Int) (binarySearch l.keys k l.comparator) = -1 :=
    max_eq_left (by omega)
  rw [SortedList.remove, indexOfKey_ok hk]
  simp [hk, hmax]

lemma remove_error {K V : Type} [JsTruthy K] {l : SortedList K V} {k : K}
    (hk : truthy k = false) :
    l.remove k = Except.error "Key must be defined." := by
  simp [SortedList.remove, hk]

lemma runOp_add_truthy {K V : Type} [JsTruthy K] [JsTruthy V]
    {l : SortedList K V} {k : K} {v : V}
    (hk : truthy k = true) (hv : truthy v = true) :
    l.runOp (SLOp.add k v) = { l with
      keys := spliceInsert l.keys (insertPosition l.comparator k l.keys) k
      values := spliceInsert l.values (insertPosition l.comparator k l.keys) v } := by
  rw [SortedList.runOp, add_ok hk hv]

lemma runOp_add_falsy {K V : Type} [JsTruthy K] [JsTruthy V]
    {l : SortedList K V} {k : K} {v : V}
    (h : truthy k = false ∨ truthy v = false) :
    l.runOp (SLOp.add k v) = l := by
  rw [SortedList.runOp, add_error h]

lemma runOp_remove_found {K V : Type} [JsTruthy K] [JsTruthy V]
    {l : SortedList K V} {k : K}
    (hk : truthy k = true) (hidx : 0 ≤ binarySearch l.keys k l.comparator) :
    l.runOp (SLOp.remove k) = { l with
      values := spliceRemove l.values (binarySearch l.keys k l.comparator).toNat
      keys := spliceRemove l.keys (binarySearch l.keys k l.comparator).toNat } := by
  rw [SortedList.runOp, remove_found hk hidx]

lemma runOp_remove_notfound {K V : Type} [JsTruthy K] [JsTruthy V]
    {l : SortedList K V} {k : K}
    (hk : truthy k = true) (hidx : binarySearch l.keys k l.comparator < 0) :
    l.runOp (SLOp.remove k) = l := by
  rw [SortedList.runOp, remove_notfound hk hidx]

lemma runOp_remove_falsy {K V : Type} [JsTruthy K] [JsTruthy V]
    {l : SortedList K V} {k : K} (hk : truthy k = false) :
    l.runOp (SLOp.remove k) = l := by
  rw [SortedList.runOp, remove_error hk]

end Numbers

namespace Numbers

/-! ### Invariants preserved by every operation sequence -/

lemma build_invariant {K V : Type} [JsTruthy K] [JsTruthy V]
    (P : SortedList K V → Prop)
    (hP : ∀ (l : SortedList K V) (op : SLOp K V), P l → P (l.runOp op)) :
    ∀ (ops : List (SLOp K V)) (linit : SortedList K V), P linit →
      P (ops.foldl SortedList.runOp linit) := by
  intro ops
  induction ops with
  | nil => intro linit h; exact h
  | cons op ops ih =>
    intro linit h
    exact ih _ (hP _ _ h)

lemma runOp_comparator {K V : Type} [JsTruthy K] [JsTruthy V]
    (l : SortedList K V) (op : SLOp K V) :
    (l.runOp op).comparator = l.comparator := by
  cases op with
  | add k v =>
    by_cases hk : truthy k = true
    · by_cases hv : truthy v = true
      · rw [runOp_add_truthy hk hv]
      · rw [runOp_add_falsy (Or.inr (by simpa using hv))]
    · rw [runOp_add_falsy (Or.inl (by simpa using hk))]
  | remove k =>
    by_cases hk : truthy k = true
    · by_cases hidx : 0 ≤ binarySearch l.keys k l.comparator
      · rw [runOp_remove_found hk hidx]
      · rw [runOp_remove_notfound hk (by omega)]
    · rw [runOp_remove_falsy (by simpa using hk)]

lemma runOp_length_eq {K V : Type} [JsTruthy K] [JsTruthy V]
    {l : SortedList K V} (op : SLOp K V)
    (h : l.keys.length = l.values.length) :
    (l.runOp op).keys.length = (l.runOp op).values.length := by
  cases op with
  | add k v =>
    by_cases hk : truthy k = true
    · by_cases hv : truthy v = true
      · rw [runOp_add_truthy hk hv]
        simp only [spliceInsert_length]
        omega
      · rw [runOp_add_falsy (Or.inr (by simpa using hv))]
        exact h
    · rw [runOp_add_falsy (Or.inl (by simpa using hk))]
      exact h
  | remove k =>
    by_cases hk : truthy k = true
    · by_cases hidx : 0 ≤ binarySearch l.keys k l.comparator
      · rw [runOp_remove_found hk hidx]
        obtain ⟨i, hi1, hi2, _⟩ := binarySearch_found l.keys k l.comparator hidx
        have htn : (binarySearch l.keys k l.comparator).toNat = i := by omega
        rw [htn]
        rw [spliceRemove_length l.keys i hi1, spliceRemove_length l.values i (by omega)]
        omega
      · rw [runOp_remove_notfound hk (by omega)]
        exact h
    · rw [runOp_remove_falsy (by simpa using hk)]
      exact h

lemma runOp_sorted {K V : Type} [JsTruthy K] [JsTruthy V]
    {l : SortedList K V} (op : SLOp K V)
    (hc : LawfulComparator l.comparator) (hs : l.Sorted) :
    (l.runOp op).Sorted := by
  haveI hTot : IsTotal K fun a b => l.comparator a b ≤ 0 := ⟨hc.total⟩
  haveI hTrans : IsTrans K fun a b => l.comparator a b ≤ 0 :=
    ⟨fun a b d => hc.trans a b d⟩
  cases op with
  | add k v =>
    by_cases hk : truthy k = true
    · by_cases hv : truthy v = true
      · rw [runOp_add_truthy hk hv]
        unfold SortedList.Sorted at hs ⊢
        simp only []
        rw [spliceInsert_insertPosition]
        exact List.Sorted.orderedInsert k l.keys hs
      · rw [runOp_add_falsy (Or.inr (by simpa using hv))]
        exact hs
    · rw [runOp_add_falsy (Or.inl (by simpa using hk))]
      exact hs
  | remove k =>
    by_cases hk : truthy k = true
    · by_cases hidx : 0 ≤ binarySearch l.keys k l.comparator
      · rw [runOp_remove_found hk hidx]
        unfold SortedList.Sorted at hs ⊢
        simp only []
        rw [spliceRemove_eq_eraseIdx]
        exact List.Pairwise.sublist (List.eraseIdx_sublist l.keys _) hs
      · rw [runOp_remove_notfound hk (by omega)]
        exact hs
    · rw [runOp_remove_falsy (by simpa using hk)]
      exact hs

lemma runOp_values_truthy {K V : Type} [JsTruthy K] [JsTruthy V]
    {l : SortedList K V} (op : SLOp K V)
    (h : ∀ v ∈ l.values, truthy v = true) :
    ∀ v ∈ (l.runOp op).values, truthy v = true := by
  cases op with
  | add k v =>
    by_cases hk : truthy k = true
    · by_cases hv : truthy v = true
      · rw [runOp_add_truthy hk hv]
        intro x hx
        simp only [spliceInsert, List.mem_append, List.mem_cons] at hx
        rcases hx with hx | hx | hx
        · exact h x (List.mem_of_mem_take hx)
        · rw [hx]; exact hv
        · exact h x (List.mem_of_mem_drop hx)
      · rw [runOp_add_falsy (Or.inr (by simpa using hv))]
        exact h
    · rw [runOp_add_falsy (Or.inl (by simpa using hk))]
      exact h
  | remove k =>
    by_cases hk : truthy k = true
    · by_cases hidx : 0 ≤ binarySearch l.keys k l.comparator
      · rw [runOp_remove_found hk hidx]
        intro x hx
        simp only [spliceRemove_eq_eraseIdx] at hx
        exact h x ((List.eraseIdx_sublist l.values _).subset hx)
      · rw [runOp_remove_notfound hk (by omega)]
        exact h
    · rw [runOp_remove_falsy (by simpa using hk)]
      exact h

end Numbers

namespace Numbers

lemma build_comparator {K V : Type} [LT K] [DecidableRel fun a b : K => a < b]
    [JsTruthy K] [JsTruthy V] (c : Option (K → K → Int))
    (ops : List (SLOp K V)) :
    (SortedList.build c ops).comparator = c.getD DEFAULT_COMPARATOR := by
  rw [SortedList.build]
  exact build_invariant (fun l => l.comparator = c.getD DEFAULT_COMPARATOR)
    (fun l op h => by simp only []; rw [runOp_comparator]; exact h)
    ops (SortedList.new c) rfl

lemma build_length {K V : Type} [LT K] [DecidableRel fun a b : K => a < b]
    [JsTruthy K] [JsTruthy V] (c : Option (K → K → Int))
    (ops : List (SLOp K V)) :
    (SortedList.build c ops).keys.length = (SortedList.build c ops).values.length := by
  rw [SortedList.build]
  exact build_invariant (fun l => l.keys.length = l.values.length)
    (fun l op h => runOp_length_eq op h) ops (SortedList.new c) rfl

lemma build_sorted {K V : Type} [LT K] [DecidableRel fun a b : K => a < b]
    [JsTruthy K] [JsTruthy V] (c : Option (K → K → Int))
    (hc : LawfulComparator (c.getD DEFAULT_COMPARATOR))
    (ops : List (SLOp K V)) :
    (SortedList.build c ops).Sorted := by
  rw [SortedList.build]
  refine (build_invariant
    (fun l => l.comparator = c.getD DEFAULT_COMPARATOR ∧ l.Sorted)
    ?_ ops (SortedList.new c) ⟨rfl, List.sorted_nil⟩).2
  intro l op h
  obtain ⟨hcomp, hsort⟩ := h
  refine ⟨by rw [runOp_comparator, hcomp], ?_⟩
  refine runOp_sorted op ?_ hsort
  rw [hcomp]
  exact hc

lemma build_values_truthy {K V : Type} [LT K]
    [DecidableRel fun a b : K => a < b] [JsTruthy K] [JsTruthy V]
    (c : Option (K → K → Int)) (ops : List (SLOp K V)) :
    ∀ v ∈ (SortedList.build c ops).values, truthy v = true := by
  rw [SortedList.build]
  refine build_invariant (fun l => ∀ v ∈ l.values, truthy v = true)
    (fun l op h => runOp_values_truthy op h) ops (SortedList.new c) ?_
  intro v hv
  simp [SortedList.new] at hv

/-! ### Claim C1 -/

/-- C1: every `SortedList` built by any sequence of `add` and `remove`
operations has its keys array sorted non-decreasingly with respect to the
list's three-way comparator — the supplied one, or `DEFAULT_COMPARATOR` when
none is supplied (hypothesis `hc` states that the resolved comparator is a
genuine three-way comparator: transitive and sign-antisymmetric). -/
theorem sortedList_sortedness_invariant {K V : Type} [LT K]
    [DecidableRel fun a b : K => a < b] [JsTruthy K] [JsTruthy V]
    (c : Option (K → K → Int))
    (hc : LawfulComparator (c.getD DEFAULT_COMPARATOR))
    (ops : List (SLOp K V)) :
    (SortedList.build c ops).Sorted :=
  build_sorted c hc ops

/-- Witness for C1: a concrete operation sequence over the default
comparator on integer keys, exercising both `add` and `remove`. -/
theorem sortedList_sortedness_invariant_witness :
    (SortedList.build (K := Int) (V := Int) Option.none
      [SLOp.add 3 10, SLOp.add 1 20, SLOp.add 2 30, SLOp.remove 2,
        SLOp.add 2 40, SLOp.add 0 50]).Sorted := by
  have h := sortedList_sortedness_invariant (K := Int) (V := Int) Option.none
    DEFAULT_COMPARATOR_lawful
    [SLOp.add 3 10, SLOp.add 1 20, SLOp.add 2 30, SLOp.remove 2,
      SLOp.add 2 40, SLOp.add 0 50]
  exact h

/-! ### Claim C8 -/

/-- C8: in every `SortedList` reachable from the empty constructor by `add`
and `remove` operations, the keys array and the values array have the same
length, and `count` equals that common length. -/
theorem sortedList_lengths_invariant {K V : Type} [LT K]
    [DecidableRel fun a b : K => a < b] [JsTruthy K] [JsTruthy V]
    (c : Option (K → K → Int)) (ops : List (SLOp K V)) :
    (SortedList.build c ops).keys.length = (SortedList.build c ops).values.length ∧
    (SortedList.build c ops).count = (SortedList.build c ops).keys.length :=
  ⟨build_length c ops, rfl⟩

end Numbers

namespace Numbers

/-! ### getValue case lemmas and lookup correctness -/

lemma getValue_error {K V : Type} [JsTruthy K] {l : SortedList K V} {k : K}
    (hk : truthy k = false) :
    l.getValue k = Except.error "Key must be defined." := by
  simp [SortedList.getValue, hk]

lemma getValue_found {K V : Type} [JsTruthy K] {l : SortedList K V} {k : K}
    (hk : truthy k = true) (hidx : 0 ≤ binarySearch l.keys k l.comparator) :
    l.getValue k =
      Except.ok (l.values.get? (binarySearch l.keys k l.comparator).toNat) := by
  have hmax : max (-1 : Int) (binarySearch l.keys k l.comparator) =
      binarySearch l.keys k l.comparator := max_eq_right (by omega)
  rw [SortedList.getValue, indexOfKey_ok hk]
  simp [hk, hmax, hidx]

lemma getValue_notfound {K V : Type} [JsTruthy K] {l : SortedList K V} {k : K}
    (hk : truthy k = true) (hidx : binarySearch l.keys k l.comparator < 0) :
    l.getValue k = Except.ok Option.none := by
  have hmax : max (-1 : Int) (binarySearch l.keys k l.comparator) = -1 :=
    max_eq_left (by omega)
  rw [SortedList.getValue, indexOfKey_ok hk]
  simp [hk, hmax]

lemma getValue_present_core {K V : Type} [JsTruthy K] [JsTruthy V]
    (l : SortedList K V) (hc : LawfulComparator l.comparator)
    (hsep : ∀ a b : K, l.comparator a b = 0 → a = b)
    (hsort : l.Sorted) (hlen : l.keys.length = l.values.length)
    (k : K) (hk : truthy k = true) (hmem : k ∈ l.keys) :
    ∃ (i : Nat) (hik : i < l.keys.length) (hiv : i < l.values.length),
      l.keys.get ⟨i, hik⟩ = k ∧
      l.getValue k = Except.ok (Option.some (l.values.get ⟨i, hiv⟩)) := by
  obtain ⟨j, hj⟩ := List.mem_iff_get.mp hmem
  have hjz : l.comparator k (l.keys.getD j.1 k) = 0 := by
    rw [List.getD_eq_getElem l.keys k j.2, ← List.get_eq_getElem, hj]
    exact hc.self_eq_zero k
  have hpos := binarySearch_present hc k hsort j.1 j.2 hjz
  obtain ⟨i, hi1, hi2, hi3⟩ := binarySearch_found l.keys k l.comparator hpos
  have hiv : i < l.values.length := by omega
  refine ⟨i, hi1, hiv, ?_, ?_⟩
  · rw [List.get_eq_getElem, ← List.getD_eq_getElem l.keys k hi1]
    exact (hsep _ _ hi3).symm
  · rw [getValue_found hk hpos, hi2, Int.toNat_natCast,
      List.get?_eq_get hiv]

lemma getValue_absent_core {K V : Type} [JsTruthy K] [JsTruthy V]
    (l : SortedList K V)
    (hsep : ∀ a b : K, l.comparator a b = 0 → a = b)
    (k : K) (hk : truthy k = true) (habs : k ∉ l.keys) :
    l.getValue k = Except.ok Option.none ∧
      l.indexOfKey k = Except.ok (-1) := by
  have hneg : binarySearch l.keys k l.comparator < 0 := by
    apply binarySearch_neg
    intro i hi hzero
    apply habs
    have hk2 : k = l.keys.getD i k := hsep _ _ hzero
    rw [hk2, List.getD_eq_getElem l.keys k hi]
    exact List.getElem_mem hi
  constructor
  · exact getValue_notfound hk hneg
  · rw [indexOfKey_ok hk, max_eq_left (by omega)]

/-! ### Claims C2 and C3 -/

/-- C2: for every `SortedList` whose comparator is a genuine three-way
comparator separating distinct keys, and which satisfies the sortedness and
equal-length invariants (these hold for every reachable list, by C1 and C8),
`getValue` applied to a defined (truthy) key present in the list returns the
value stored at the same index as that key. -/
theorem sortedList_getValue_present {K V : Type} [JsTruthy K] [JsTruthy V]
    (l : SortedList K V) (hc : LawfulComparator l.comparator)
    (hsep : ∀ a b : K, l.comparator a b = 0 → a = b)
    (hsort : l.Sorted) (hlen : l.keys.length = l.values.length)
    (k : K) (hk : truthy k = true) (hmem : k ∈ l.keys) :
    ∃ (i : Nat) (hik : i < l.keys.length) (hiv : i < l.values.length),
      l.keys.get ⟨i, hik⟩ = k ∧
      l.getValue k = Except.ok (Option.some (l.values.get ⟨i, hiv⟩)) :=
  getValue_present_core l hc hsep hsort hlen k hk hmem

/-- Witness for C2: looking up the present key `3` in the sample list. -/
theorem sortedList_getValue_present_witness :
    ∃ (i : Nat) (hik : i < sampleList.keys.length)
      (hiv : i < sampleList.values.length),
      sampleList.keys.get ⟨i, hik⟩ = 3 ∧
      sampleList.getValue 3 =
        Except.ok (Option.some (sampleList.values.get ⟨i, hiv⟩)) :=
  sortedList_getValue_present sampleList DEFAULT_COMPARATOR_lawful
    (fun a b h => DEFAULT_COMPARATOR_eq_zero h)
    (by unfold SortedList.Sorted sampleList; decide) (by decide) 3
    (by decide) (by decide)

/-- C3: for every `SortedList` whose comparator separates distinct keys,
looking up a defined (truthy) key that is not present yields the not-found
sentinel: `getValue` returns `null` and `indexOfKey` returns `-1`. -/
theorem sortedList_getValue_absent {K V : Type} [JsTruthy K] [JsTruthy V]
    (l : SortedList K V)
    (hsep : ∀ a b : K, l.comparator a b = 0 → a = b)
    (k : K) (hk : truthy k = true) (habs : k ∉ l.keys) :
    l.getValue k = Except.ok Option.none ∧
      l.indexOfKey k = Except.ok (-1) :=
  getValue_absent_core l hsep k hk habs

/-- Witness for C3: looking up the absent key `2` in the sample list. -/
theorem sortedList_getValue_absent_witness :
    sampleList.getValue 2 = Except.ok Option.none ∧
      sampleList.indexOfKey 2 = Except.ok (-1) :=
  sortedList_getValue_absent sampleList
    (fun a b h => DEFAULT_COMPARATOR_eq_zero h) 2 (by decide) (by decide)

end Numbers

namespace Numbers

/-! ### Claim C4 (corrected) -/

lemma bool_eq_true_of_ne_false {b : Bool} (h : ¬ b = false) : b = true := by
  cases b
  · exact absurd rfl h
  · rfl

/-- Counterexample to C4 as stated: `add` throws although its key `1` and
its value `some 0` are both defined (neither is null/undefined — `some 0`
models the defined JS number `0`, which is merely falsy); and `getValue`
throws on the defined but falsy key `some 0`. -/
theorem sortedList_throws_beyond_null_undefined :
    (({ keys := [], values := [], comparator := DEFAULT_COMPARATOR } :
        SortedList Int (Option Int)).add 1 (Option.some 0) =
      Except.error "Key and value must be defined.") ∧
    (({ keys := [], values := [], comparator := fun _ _ => 0 } :
        SortedList (Option Int) Int).getValue (Option.some 0) =
      Except.error "Key must be defined.") :=
  ⟨rfl, rfl⟩

/-- C4 amended: each of `getValue`, `indexOfKey`, `add` and `remove` throws
exactly when its key argument is falsy (null, undefined, `0`, the empty
string, `false`), `add` additionally throws exactly when its value argument
is falsy, and none of the operations has any other failure mode. -/
theorem sortedList_throw_conditions {K V : Type} [JsTruthy K] [JsTruthy V]
    (l : SortedList K V) (k : K) (v : V) :
    ((∃ msg, l.getValue k = Except.error msg) ↔ truthy k = false) ∧
    ((∃ msg, l.indexOfKey k = Except.error msg) ↔ truthy k = false) ∧
    ((∃ msg, l.remove k = Except.error msg) ↔ truthy k = false) ∧
    ((∃ msg, l.add k v = Except.error msg) ↔
      (truthy k = false ∨ truthy v = false)) := by
  refine ⟨⟨?_, ?_⟩, ⟨?_, ?_⟩, ⟨?_, ?_⟩, ⟨?_, ?_⟩⟩
  · rintro ⟨msg, hmsg⟩
    by_contra hne
    have hk : truthy k = true := bool_eq_true_of_ne_false hne
    rcases lt_or_le (binarySearch l.keys k l.comparator) 0 with hidx | hidx
    · rw [getValue_notfound hk hidx] at hmsg
      exact Except.noConfusion hmsg
    · rw [getValue_found hk hidx] at hmsg
      exact Except.noConfusion hmsg
  · intro hk
    exact ⟨"Key must be defined.", getValue_error hk⟩
  · rintro ⟨msg, hmsg⟩
    by_contra hne
    have hk : truthy k = true := bool_eq_true_of_ne_false hne
    rw [indexOfKey_ok hk] at hmsg
    exact Except.noConfusion hmsg
  · intro hk
    exact ⟨"Key must be defined.", indexOfKey_error hk⟩
  · rintro ⟨msg, hmsg⟩
    by_contra hne
    have hk : truthy k = true := bool_eq_true_of_ne_false hne
    rcases lt_or_le (binarySearch l.keys k l.comparator) 0 with hidx | hidx
    · rw [remove_notfound hk hidx] at hmsg
      exact Except.noConfusion hmsg
    · rw [remove_found hk hidx] at hmsg
      exact Except.noConfusion hmsg
  · intro hk
    exact ⟨"Key must be defined.", remove_error hk⟩
  · rintro ⟨msg, hmsg⟩
    by_contra hne
    push_neg at hne
    obtain ⟨hk, hv⟩ := hne
    rw [add_ok (bool_eq_true_of_ne_false hk) (bool_eq_true_of_ne_false hv)]
      at hmsg
    exact Except.noConfusion hmsg
  · intro h
    exact ⟨"Key and value must be defined.", add_error h⟩

/-! ### Claim C5 -/

/-- C5: a successful `add(key, value)` inserts at the position found by the
linear scan: the smallest index `p` with `comparator(key, keys[p]) <= 0`
(the end when no such index exists); in particular every index before `p`
compares strictly greater, any index comparing `<= 0` — including an equal
key — is at or after `p`, and `count` grows by exactly one. -/
theorem sortedList_add_linear_scan {K V : Type} [JsTruthy K] [JsTruthy V]
    (l : SortedList K V) (k : K) (v : V)
    (hk : truthy k = true) (hv : truthy v = true) :
    ∃ (l' : SortedList K V) (p : Nat),
      l.add k v = Except.ok l' ∧
      p = insertPosition l.comparator k l.keys ∧
      p ≤ l.keys.length ∧
      l'.keys = l.keys.take p ++ k :: l.keys.drop p ∧
      l'.values = l.values.take p ++ v :: l.values.drop p ∧
      (∀ (j : Nat) (hj : j < l.keys.length), j < p →
        0 < l.comparator k (l.keys.get ⟨j, hj⟩)) ∧
      (∀ hp : p < l.keys.length, l.comparator k (l.keys.get ⟨p, hp⟩) ≤ 0) ∧
      (∀ (j : Nat) (hj : j < l.keys.length),
        l.comparator k (l.keys.get ⟨j, hj⟩) ≤ 0 → p ≤ j) ∧
      l'.count = l.count + 1 := by
  refine ⟨_, insertPosition l.comparator k l.keys, add_ok hk hv, rfl,
    insertPosition_le_length _ _ _, rfl, rfl, ?_, ?_, ?_, ?_⟩
  · intro j hj hjp
    have h1 := insertPosition_gt_of_lt l.comparator k k l.keys j hjp
    rw [List.getD_eq_getElem l.keys k hj] at h1
    rw [List.get_eq_getElem]
    exact h1
  · intro hp
    have h1 := insertPosition_le_of_lt l.comparator k k l.keys hp
    rw [List.getD_eq_getElem l.keys k hp] at h1
    rw [List.get_eq_getElem]
    exact h1
  · intro j hj hle
    rw [List.get_eq_getElem] at hle
    apply insertPosition_min l.comparator k k l.keys j hj
    rw [List.getD_eq_getElem l.keys k hj]
    exact hle
  · simp [SortedList.count, spliceInsert_length]

/-- Witness for C5: adding the key `2` (equal to no existing key) with value
`20` to the sample list. -/
theorem sortedList_add_linear_scan_witness :
    ∃ (l' : SortedList Int Int) (p : Nat),
      sampleList.add 2 20 = Except.ok l' ∧
      p = insertPosition sampleList.comparator 2 sampleList.keys ∧
      p ≤ sampleList.keys.length ∧
      l'.keys = sampleList.keys.take p ++ 2 :: sampleList.keys.drop p ∧
      l'.values = sampleList.values.take p ++ 20 :: sampleList.values.drop p ∧
      (∀ (j : Nat) (hj : j < sampleList.keys.length), j < p →
        0 < sampleList.comparator 2 (sampleList.keys.get ⟨j, hj⟩)) ∧
      (∀ hp : p < sampleList.keys.length,
        sampleList.comparator 2 (sampleList.keys.get ⟨p, hp⟩) ≤ 0) ∧
      (∀ (j : Nat) (hj : j < sampleList.keys.length),
        sampleList.comparator 2 (sampleList.keys.get ⟨j, hj⟩) ≤ 0 → p ≤ j) ∧
      l'.count = sampleList.count + 1 :=
  sortedList_add_linear_scan sampleList 2 20 (by decide) (by decide)

end Numbers

namespace Numbers

/-! ### Claim C9 -/

/-- C9: `add` throws whenever its value is falsy, so no falsy value is ever
stored in a reachable `SortedList`; consequently, for reachable lists over a
genuine, key-separating comparator, `getValue` returns `null` exactly for
defined keys that are absent — a stored `null` can never cause ambiguity. -/
theorem sortedList_no_falsy_values {K V : Type} [LT K]
    [DecidableRel fun a b : K => a < b] [JsTruthy K] [JsTruthy V] :
    (∀ (l : SortedList K V) (k : K) (v : V), truthy v = false →
      l.add k v = Except.error "Key and value must be defined.") ∧
    (∀ (c : Option (K → K → Int)) (ops : List (SLOp K V)),
      ∀ v ∈ (SortedList.build c ops).values, truthy v = true) ∧
    (∀ (c : Option (K → K → Int)) (ops : List (SLOp K V)) (k : K),
      LawfulComparator (c.getD DEFAULT_COMPARATOR) →
      (∀ a b : K, c.getD DEFAULT_COMPARATOR a b = 0 → a = b) →
      truthy k = true →
      ((SortedList.build c ops).getValue k = Except.ok Option.none ↔
        k ∉ (SortedList.build c ops).keys)) := by
  refine ⟨fun l k v hv => add_error (Or.inr hv), build_values_truthy, ?_⟩
  intro c ops k hc hsep hk
  have hcomp := build_comparator (V := V) c ops
  constructor
  · intro hnone hmem
    obtain ⟨i, hik, hiv, _, hval⟩ :=
      getValue_present_core (SortedList.build c ops)
        (by rw [hcomp]; exact hc)
        (by rw [hcomp]; exact hsep)
        (build_sorted c hc ops) (build_length c ops) k hk hmem
    rw [hval] at hnone
    simp at hnone
  · intro habs
    exact (getValue_absent_core (SortedList.build c ops)
      (by rw [hcomp]; exact hsep) k hk habs).1

/-- Witness for C9: adding the falsy value `0` throws, and on the concrete
reachable list built by `add 1 5` the key `2` is absent and `getValue`
returns `null`. -/
theorem sortedList_no_falsy_values_witness :
    (({ keys := [], values := [], comparator := DEFAULT_COMPARATOR } :
        SortedList Int Int).add 1 0 =
      Except.error "Key and value must be defined.") ∧
    (SortedList.build (K := Int) (V := Int) Option.none
        [SLOp.add 1 5]).getValue 2 = Except.ok Option.none := by
  constructor
  · exact (sortedList_no_falsy_values (K := Int) (V := Int)).1
      { keys := [], values := [], comparator := DEFAULT_COMPARATOR } 1 0
      (by decide)
  · exact ((sortedList_no_falsy_values (K := Int) (V := Int)).2.2
      Option.none [SLOp.add 1 5] 2 DEFAULT_COMPARATOR_lawful
      (fun a b h => DEFAULT_COMPARATOR_eq_zero h) (by decide)).mpr
      (by decide)

end Numbers
